import Mathlib

/-!
# xportal command line: replacement-directive resolution

A shallow embedding of `cmd/main.go` and `cmd/default_replacements.go`:
the directive parser `splitWith`, the argument loop of `runBuild`, the
module-list reconciler `parseGoListJson` and the merge with
`defaultReplacements` done by `runBuild` and `runDev`.

Go strings are modelled by Lean strings; the byte-level helpers of the Go
standard library that the code calls (`strings.Index`, `strings.LastIndex`,
`strings.SplitN`, `strings.TrimSuffix`, `strings.HasPrefix`,
`filepath.IsAbs`, `filepath.Join`, `filepath.Clean`) are modelled on the
character list of the string, for a Unix target, and for the one-byte
separators the code passes to them.
-/

namespace Xportal

/-! ## Go standard library helpers -/

namespace strings

/-- Index of the first occurrence of `c` in the list, `-1` when there is none. -/
def indexChars (c : Char) : List Char → Int
  | [] => -1
  | x :: xs =>
    if x = c then 0
    else
      let r := indexChars c xs
      if r < 0 then -1 else r + 1

/-- Index of the last occurrence of `c` in the list, `-1` when there is none. -/
def lastIndexChars (c : Char) : List Char → Int
  | [] => -1
  | x :: xs =>
    let r := lastIndexChars c xs
    if 0 ≤ r then r + 1
    else if x = c then 0
    else -1

/-- Go `strings.Index(s, sep)` for a one-byte separator. -/
def Index (s : String) (sep : Char) : Int := indexChars sep s.data

/-- Go `strings.LastIndex(s, sep)` for a one-byte separator. -/
def LastIndex (s : String) (sep : Char) : Int := lastIndexChars sep s.data

/-- Text before the first `c` and, when `c` occurs, the text after it. -/
def cutChars (c : Char) : List Char → List Char × Option (List Char)
  | [] => ([], none)
  | x :: xs =>
    if x = c then ([], some xs)
    else ((cutChars c xs).1.cons x, (cutChars c xs).2)

/-- Go `strings.SplitN(s, sep, 2)` for a one-byte separator: `parts[0]` and,
when the result has two parts, `parts[1]`. -/
def SplitN2 (s : String) (sep : Char) : String × Option String :=
  (String.mk (cutChars sep s.data).1, (cutChars sep s.data).2.map String.mk)

/-- Go `strings.HasPrefix(s, prefix)` for a one-byte prefix. -/
def HasPrefix (s : String) (c : Char) : Bool :=
  match s.data with
  | [] => false
  | x :: _ => x == c

/-- Go `strings.HasSuffix(s, suffix)` for a one-byte suffix. -/
def HasSuffix (s : String) (c : Char) : Bool :=
  match s.data.reverse with
  | [] => false
  | x :: _ => x == c

/-- Go `strings.TrimSuffix(s, suffix)` for a one-byte suffix: the suffix is
removed once when present. -/
def TrimSuffix (s : String) (c : Char) : String :=
  if HasSuffix s c then String.mk s.data.dropLast else s

/-- Go slice expression `s[:i]` (for `0 ≤ i ≤ len(s)`). -/
def sliceTo (s : String) (i : Int) : String := String.mk (s.data.take i.toNat)

/-- Go slice expression `s[i:]` (for `0 ≤ i ≤ len(s)`). -/
def sliceFrom (s : String) (i : Int) : String := String.mk (s.data.drop i.toNat)

end strings

/-! ## The directive parser -/

/-- Result of `splitWith`: the named results `module, version, replace, err`. -/
structure SplitResult where
  module : String
  version : String
  replace : String
  err : Option String
  deriving DecidableEq, Repr

/-- Go `splitWith` (cmd/main.go): the separators are `versionSplit = "@"`
and `replaceSplit = "="`. -/
def splitWith (arg : String) : SplitResult :=
  let versionSplit := '@'
  let replaceSplit := '='
  let parts := strings.SplitN2 arg replaceSplit
  let replace : String := match parts.2 with
    | some p1 => p1
    | none => ""
  let module := parts.1
  let lastVersionSplit := strings.LastIndex module versionSplit
  let mvr : String × String × String :=
    if lastVersionSplit < 0 then
      let replaceIdx := strings.Index module replaceSplit
      if 0 ≤ replaceIdx then
        (strings.sliceTo module replaceIdx, "", strings.sliceFrom module (replaceIdx + 1))
      else (module, "", replace)
    else
      let module1 := strings.sliceTo module lastVersionSplit
      let version := strings.sliceFrom module (lastVersionSplit + 1)
      let replaceIdx := strings.Index version replaceSplit
      if 0 ≤ replaceIdx then
        (module1, strings.sliceTo module1 replaceIdx, strings.sliceFrom module1 (replaceIdx + 1))
      else (module1, version, replace)
  { module := mvr.1, version := mvr.2.1, replace := mvr.2.2,
    err := if mvr.1 = "" then some "module name is required" else none }

/-! ## Paths -/

namespace filepath

/-- Elements of a path between the separators `/`. -/
def splitSlash : List Char → List (List Char)
  | [] => [[]]
  | c :: cs =>
    if c = '/' then [] :: splitSlash cs
    else
      match splitSlash cs with
      | [] => [[c]]
      | e :: es => (c :: e) :: es

/-- One element of the lexical clean-up of Go `filepath.Clean`; `stack` holds
the elements kept so far, the last one first. Empty and `.` elements are
dropped, `..` removes the last real element, is dropped at the root of a rooted
path and is kept at the front of a relative one. -/
def cleanStep (rooted : Bool) (stack : List (List Char)) (e : List Char) : List (List Char) :=
  if e = [] ∨ e = ['.'] then stack
  else if e = ['.', '.'] then
    match stack with
    | [] => if rooted then [] else [e]
    | top :: rest => if top = ['.', '.'] then e :: stack else rest
  else e :: stack

/-- Go `filepath.Clean` on Unix. -/
def Clean (path : String) : String :=
  if path = "" then "."
  else
    let rooted := strings.HasPrefix path '/'
    let stack := (splitSlash path.data).foldl (cleanStep rooted) []
    let body := List.intercalate ['/'] stack.reverse
    if rooted then String.mk ('/' :: body)
    else if body = [] then "." else String.mk body

/-- Go `filepath.IsAbs` on Unix. -/
def IsAbs (path : String) : Bool := strings.HasPrefix path '/'

/-- Go `filepath.Join` of two elements on Unix: empty leading elements are
ignored and the result is cleaned. -/
def Join (a b : String) : String :=
  if a ≠ "" then Clean (a ++ "/" ++ b)
  else if b ≠ "" then Clean b
  else ""

/-- Go `filepath.Abs` on Unix; `cwd` is the result of `os.Getwd()`, `none` when
it fails. -/
def Abs (cwd : Option String) (path : String) : Option String :=
  if IsAbs path then some (Clean path)
  else
    match cwd with
    | none => none
    | some wd => some (Join wd path)

end filepath

/-! ## Data model -/

/-- Go `xportal.Dependency`. -/
structure Dependency where
  PackagePath : String
  Version : String
  deriving DecidableEq, Repr

/-- Modelled from the spec: `Dependency.String` of package `xportal`, which is
not among the sources; the spec describes the rendered form as a
`module-path[@version]` reference. -/
def Dependency.String (d : Dependency) : String :=
  if d.Version ≠ "" then d.PackagePath ++ "@" ++ d.Version else d.PackagePath

/-- Go `xportal.Replace`: `Old` is the original, `New` the target. -/
structure Replace where
  Old : String
  New : String
  deriving DecidableEq, Repr

/-- Modelled from the spec: `xportal.NewReplace` of package `xportal`, which is
not among the sources; the spec describes a substitution as the ordered pair
of original and target. -/
def NewReplace (old new : String) : Replace := { Old := old, New := new }

/-- Go `module` (cmd/main.go): one record of `go list -m -json all`. -/
inductive module where
  | mk (Path : String) (Version : String) (Replace : Option module) (Main : Bool) (Dir : String)

/-- Field `Path`. -/
def module.Path : module → String
  | .mk p _ _ _ _ => p

/-- Field `Version`. -/
def module.Version : module → String
  | .mk _ v _ _ _ => v

/-- Field `Replace` (a nil pointer is `none`). -/
def module.Replace : module → Option module
  | .mk _ _ r _ _ => r

/-- Field `Main`. -/
def module.Main : module → Bool
  | .mk _ _ _ m _ => m

/-- Field `Dir`. -/
def module.Dir : module → String
  | .mk _ _ _ _ d => d

/-- Outcome of a function that may `return fmt.Errorf(...)` or stop the
process with `log.Fatalf`. -/
inductive Outcome (α : Type) where
  | ok (a : α)
  | error (msg : String)
  | fatal (msg : String)
  deriving DecidableEq, Repr

/-! ## Built-in substitutions -/

/-- Table `replList` of `init` (cmd/default_replacements.go):
`oldMod, oldVer, newMod, newVer`. -/
def replList : List (String × String × String × String) :=
  [ ("github.com/go-co-op/gocron/v2", "v2.5.0",
      "github.com/LumeWeb/gocron/v2", "v2.0.0-20240617005936-d493ed747a81"),
    ("github.com/go-viper/mapstructure/v2", "v2.0.0",
      "github.com/LumeWeb/mapstructure/v2", "v2.0.0-20240603224933-c63fee0297e6"),
    ("github.com/gorilla/mux", "v1.8.1",
      "github.com/cornejong/gormux", "v0.0.0-20240526072501-ce1c97b033ec"),
    ("github.com/tus/tusd-etcd3-locker", "v0.0.0-20200405122323-74aeca810256",
      "github.com/LumeWeb/tusd-etcd3-locker", "v0.0.0-20240510103936-0d66760cf053"),
    ("github.com/tus/tusd/v2", "v2.4.0",
      "github.com/LumeWeb/tusd/v2", "v2.2.3-0.20240617010021-713280c42722") ]

/-- Value of the package variable `defaultReplacements` after `init`. -/
def defaultReplacements : List Replace :=
  replList.map fun r =>
    NewReplace (Dependency.String ⟨r.1, r.2.1⟩) (Dependency.String ⟨r.2.2.1, r.2.2.2⟩)

/-! ## The module-list reconciler -/

/-- One value returned by `decoder.Decode(&mod)` before `io.EOF`: a decoded
record, or a decoding error. -/
inductive Decoded where
  | record (mod : module)
  | malformed (err : String)

/-- Local state of `parseGoListJson` during its loop. -/
structure ParseState where
  currentModule : String
  moduleDir : String
  replacements : List Replace
  unjoinedReplaces : List Nat

/-- Results `currentModule, moduleDir, replacements, err` of `parseGoListJson`. -/
structure ParseResult where
  currentModule : String
  moduleDir : String
  replacements : List Replace
  err : Option String
  deriving DecidableEq, Repr

/-- Body of the loop of `parseGoListJson` for one decoded record. -/
def parseRecord (st : ParseState) (mod : module) : ParseState :=
  if mod.Main then
    { st with
      currentModule := mod.Path
      moduleDir := mod.Dir
      replacements := st.replacements ++ [NewReplace mod.Path mod.Dir] }
  else
    match mod.Replace with
    | none => st
    | some repl =>
      let dstPath := repl.Path
      let dstVersion := repl.Version
      if dstVersion ≠ "" then
        { st with replacements := st.replacements ++ [NewReplace mod.Path (dstPath ++ "@" ++ dstVersion)] }
      else if filepath.IsAbs dstPath then
        { st with replacements := st.replacements ++ [NewReplace mod.Path dstPath] }
      else if st.moduleDir ≠ "" then
        { st with replacements := st.replacements ++ [NewReplace mod.Path (filepath.Join st.moduleDir dstPath)] }
      else
        { st with
          unjoinedReplaces := st.unjoinedReplaces ++ [st.replacements.length]
          replacements := st.replacements ++ [NewReplace mod.Path dstPath] }

/-- The decoding loop of `parseGoListJson`: the state when the stream ends, and
the decoding error that stopped the loop, if any. -/
def parseLoop : List Decoded → ParseState → ParseState × Option String
  | [], st => (st, none)
  | .malformed e :: _, st => (st, some e)
  | .record mod :: rest, st => parseLoop rest (parseRecord st mod)

/-- One step of the final loop of `parseGoListJson`: slot `idx` of
`replacements` gets its target joined to `moduleDir`. The indices recorded by
the decoding loop are positions of existing slots. -/
def joinAt (moduleDir : String) (replacements : List Replace) (idx : Nat) : List Replace :=
  match replacements[idx]? with
  | none => replacements
  | some r => replacements.set idx { r with New := filepath.Join moduleDir r.New }

/-- Go `parseGoListJson` on the values its decoder yields. -/
def parseGoListJson (out : List Decoded) : ParseResult :=
  match parseLoop out ⟨"", "", [], []⟩ with
  | (st, some e) =>
    { currentModule := st.currentModule, moduleDir := st.moduleDir,
      replacements := st.replacements, err := some e }
  | (st, none) =>
    { currentModule := st.currentModule, moduleDir := st.moduleDir,
      replacements := st.unjoinedReplaces.foldl (joinAt st.moduleDir) st.replacements,
      err := none }

/-- A stream in which every record decodes. -/
def recordStream (mods : List module) : List Decoded := mods.map Decoded.record

/-- Package variables read from the environment and the process state the
commands consult. -/
structure Env where
  portalVersion : String
  raceDetector : Bool
  skipBuild : Bool
  skipCleanup : Bool
  buildDebugOutput : Bool
  buildFlags : String
  modFlags : String
  goos : String
  cwd : Option String

/-- Go `xportal.Builder` as filled in by `runBuild` and `runDev` (`Compile.Cgo`
is always true). -/
structure Builder where
  PortalVersion : String
  Plugins : List Dependency
  Replacements : List Replace
  RaceDetector : Bool
  SkipBuild : Bool
  SkipCleanup : Bool
  Debug : Bool
  BuildFlags : String
  ModFlags : String
  deriving DecidableEq, Repr

/-- Local variables `argPortalVersion, output, plugins, replacements` of
`runBuild`. -/
structure BuildArgs where
  argPortalVersion : String
  output : String
  plugins : List Dependency
  replacements : List Replace
  deriving DecidableEq, Repr

/-- Arm `case "--with", "--replace"` of the loop of `runBuild`, for the flag
`arg` and its value `args[i]`. -/
def withOrReplace (cwd : Option String) (arg value : String) (st : BuildArgs) : Outcome BuildArgs :=
  let r := splitWith value
  match r.err with
  | some e => .error e
  | none =>
    let mod := strings.TrimSuffix r.module '/'
    let ver := r.version
    let plugins := if arg = "--with" then st.plugins ++ [⟨mod, ver⟩] else st.plugins
    if arg ≠ "--with" ∧ r.replace = "" then .error "expected value after --replace flag"
    else if r.replace ≠ "" then
      if strings.HasPrefix r.replace '.' then
        match filepath.Abs cwd r.replace with
        | none => .fatal "getwd"
        | some repl =>
          .ok { st with
            plugins := plugins
            replacements := st.replacements ++ [NewReplace (Dependency.String ⟨mod, ver⟩) repl] }
      else
        .ok { st with
          plugins := plugins
          replacements := st.replacements ++ [NewReplace (Dependency.String ⟨mod, ver⟩) r.replace] }
    else .ok { st with plugins := plugins }

/-- Arm `default` of the loop of `runBuild`: the positional portal version. -/
def positional (a : String) (st : BuildArgs) : Outcome BuildArgs :=
  if st.argPortalVersion ≠ "" then
    .error ("missing flag; portal version already set at " ++ st.argPortalVersion)
  else .ok { st with argPortalVersion := a }

/-- The argument loop of `runBuild`. -/
def runBuildLoop (cwd : Option String) : List String → BuildArgs → Outcome BuildArgs
  | [], st => .ok st
  | [a], st =>
    if a = "--with" ∨ a = "--replace" then .error ("expected value after " ++ a ++ " flag")
    else if a = "--output" then .error "expected value after --output flag"
    else positional a st
  | a :: v :: rest, st =>
    if a = "--with" ∨ a = "--replace" then
      match withOrReplace cwd a v st with
      | .ok st1 => runBuildLoop cwd rest st1
      | .error e => .error e
      | .fatal e => .fatal e
    else if a = "--output" then runBuildLoop cwd rest { st with output := v }
    else
      match positional a st with
      | .ok st1 => runBuildLoop cwd (v :: rest) st1
      | .error e => .error e
      | .fatal e => .fatal e

/-- Go `getPortalOutputFile`. -/
def getPortalOutputFile (goos : String) : String :=
  if goos = "windows" then "./portal.exe" else "./portal"

/-- Go `runBuild` up to the call of `builder.Build(ctx, output)`: the builder
and the output path handed to it. -/
def runBuild (env : Env) (args : List String) : Outcome (Builder × String) :=
  match runBuildLoop env.cwd args ⟨"", "", [], []⟩ with
  | .error e => .error e
  | .fatal e => .fatal e
  | .ok st =>
    let replacements := st.replacements ++ defaultReplacements
    let portalVersion := if st.argPortalVersion ≠ "" then st.argPortalVersion else env.portalVersion
    let output := if st.output = "" then getPortalOutputFile env.goos else st.output
    .ok ({ PortalVersion := portalVersion, Plugins := st.plugins, Replacements := replacements,
           RaceDetector := env.raceDetector, SkipBuild := env.skipBuild,
           SkipCleanup := env.skipCleanup, Debug := env.buildDebugOutput,
           BuildFlags := env.buildFlags, ModFlags := env.modFlags }, output)

/-- Target of the substitution `repl` declared by a non-root record when the
root directory known at that point of the stream is `cur` and the root
directory at the end of the stream is `final`. -/
def resolvedTarget (final cur : String) (repl : module) : String :=
  if repl.Version ≠ "" then repl.Path ++ "@" ++ repl.Version
  else if filepath.IsAbs repl.Path then repl.Path
  else if cur ≠ "" then filepath.Join cur repl.Path
  else filepath.Join final repl.Path

/-- Entries a record contributes to the output. -/
def entriesOf (final cur : String) (mod : module) : List Replace :=
  if mod.Main then [NewReplace mod.Path mod.Dir]
  else
    match mod.Replace with
    | none => []
    | some repl => [NewReplace mod.Path (resolvedTarget final cur repl)]

/-- Root directory known after a record. -/
def dirAfter (cur : String) (mod : module) : String :=
  if mod.Main then mod.Dir else cur

/-- Root module path known after a record. -/
def moduleAfter (cur : String) (mod : module) : String :=
  if mod.Main then mod.Path else cur

/-- Entries of a whole stream, the root directory known so far being `cur`. -/
def entries (final : String) : String → List module → List Replace
  | _, [] => []
  | cur, mod :: mods => entriesOf final cur mod ++ entries final (dirAfter cur mod) mods

/-- Reference target of the spec for a substitution `repl`, the root directory
being `D`: `path@version` when a version is given, the path itself when it is
absolute, and the path joined to `D` otherwise. -/
def referenceTarget (D : String) (repl : module) : String :=
  if repl.Version ≠ "" then repl.Path ++ "@" ++ repl.Version
  else if filepath.IsAbs repl.Path then repl.Path
  else filepath.Join D repl.Path

/-- Reference entry of the spec for one record: the self-substitution for the
root record, nothing for a non-root record without substitution, and the
resolved substitution otherwise. -/
def referenceEntry (D : String) (mod : module) : Option Replace :=
  if mod.Main then some (NewReplace mod.Path mod.Dir)
  else
    match mod.Replace with
    | none => none
    | some repl => some (NewReplace mod.Path (referenceTarget D repl))

/-- The record carries a relative substitution target without version. -/
def relativeTarget (mod : module) : Bool :=
  match mod.Replace with
  | none => false
  | some repl => repl.Version == "" && !filepath.IsAbs repl.Path

/-- The record contributes an entry to the output: it is the root record or it
carries a substitution. -/
def hasEntry (mod : module) : Bool := mod.Main || mod.Replace.isSome

/-- State of `parseGoListJson` at the end of its decoding loop, before the
deferred targets are joined. -/
def loopState (out : List Decoded) : ParseState := (parseLoop out ⟨"", "", [], []⟩).1

/-- The target of an entry joined to the directory `d`, as the final loop of
`parseGoListJson` does for a deferred slot. -/
def joinTarget (d : String) (r : Replace) : Replace := { r with New := filepath.Join d r.New }

/-- Every deferred index is the position of an existing slot. -/
def ParseState.Valid (st : ParseState) : Prop :=
  ∀ i ∈ st.unjoinedReplaces, i < st.replacements.length

/-- The list the final loop produces from a state, for the directory `d`. -/
def ParseState.resolve (d : String) (st : ParseState) : List Replace :=
  st.unjoinedReplaces.foldl (joinAt d) st.replacements

/-- Example record: a dependency substituted by the relative path `./local`. -/
def exampleDep : module :=
  .mk "example.com/app/dep" "" (some (.mk "./local" "" none false "")) false ""

/-- Example record: the root module in `/home/u/app`. -/
def exampleRoot : module :=
  .mk "example.com/app" "" none true "/home/u/app"

/-- Example record: a dependency substituted by a versioned module. -/
def exampleFork : module :=
  .mk "example.com/lib" "v1.0.0" (some (.mk "example.com/fork" "v1.0.1" none false "")) false ""

/-- Example record: a dependency substituted by an absolute path. -/
def exampleAbs : module :=
  .mk "example.com/tool" "v0.1.0" (some (.mk "/opt/tool" "" none false "")) false ""

/-- Example record: a dependency without substitution. -/
def examplePlain : module :=
  .mk "example.com/plain" "v0.3.0" none false ""

/-- Example environment: no flag set, Linux, working directory `/home/u/app`. -/
def exampleEnv : Env :=
  { portalVersion := "", raceDetector := false, skipBuild := false, skipCleanup := false,
    buildDebugOutput := false, buildFlags := "", modFlags := "", goos := "linux",
    cwd := some "/home/u/app" }

/-! ## Reference definitions for the command line -/

/-- The flag and value of each `--with` and `--replace` directive of a `build`
command line, in command-line order: a flag takes the argument that follows
it as its value, `--output` takes one too, and any other argument stands
alone as the portal version. -/
def directiveValues : List String → List (String × String)
  | [] => []
  | [_] => []
  | a :: v :: rest =>
    if a = "--with" ∨ a = "--replace" then (a, v) :: directiveValues rest
    else if a = "--output" then directiveValues rest
    else directiveValues (v :: rest)

/-- The dependency a directive value names: the parsed module path with one
trailing `/` removed, and the parsed version. -/
def dependencyOf (value : String) : Dependency :=
  ⟨strings.TrimSuffix (splitWith value).module '/', (splitWith value).version⟩

/-- The substitution a directive value declares, if it has a target: the
original is the rendering of its dependency, the target is the text after the
first `=`, made absolute against the working directory when it starts with
`.` (left as written should the working directory be unknown). -/
def substitutionOf (cwd : Option String) (value : String) : List Replace :=
  if (splitWith value).replace = "" then []
  else
    [NewReplace (Dependency.String (dependencyOf value))
      (if strings.HasPrefix (splitWith value).replace '.'
       then (filepath.Abs cwd (splitWith value).replace).getD (splitWith value).replace
       else (splitWith value).replace)]

/-- The plugins of a command line: the dependency of each `--with` value, in
command-line order. -/
def explicitPlugins : List (String × String) → List Dependency
  | [] => []
  | p :: ps => (if p.1 = "--with" then [dependencyOf p.2] else []) ++ explicitPlugins ps

/-- The explicit substitutions of a command line: the substitution of each
directive value that has a target, in command-line order. -/
def explicitSubstitutions (cwd : Option String) : List (String × String) → List Replace
  | [] => []
  | p :: ps => substitutionOf cwd p.2 ++ explicitSubstitutions cwd ps

theorem indexChars_of_not_mem (c : Char) (l : List Char) (h : c ∉ l) :
    strings.indexChars c l = -1 := by
  induction l with
  | nil => rfl
  | cons x xs ih =>
    have hx : x ≠ c := fun e => h (by simp [e])
    have hxs : c ∉ xs := fun e => h (by simp [e])
    simp [strings.indexChars, hx, ih hxs]

theorem lastIndexChars_of_not_mem (c : Char) (l : List Char) (h : c ∉ l) :
    strings.lastIndexChars c l = -1 := by
  induction l with
  | nil => rfl
  | cons x xs ih =>
    have hx : x ≠ c := fun e => h (by simp [e])
    have hxs : c ∉ xs := fun e => h (by simp [e])
    simp [strings.lastIndexChars, hx, ih hxs]

theorem lastIndexChars_append (c : Char) (m v : List Char) (h : c ∉ v) :
    strings.lastIndexChars c (m ++ c :: v) = m.length := by
  induction m with
  | nil => simp [strings.lastIndexChars, lastIndexChars_of_not_mem c v h]
  | cons x xs ih =>
    have h0 : (0 : Int) ≤ (xs.length : Int) := Int.natCast_nonneg _
    show (if 0 ≤ strings.lastIndexChars c (xs ++ c :: v)
        then strings.lastIndexChars c (xs ++ c :: v) + 1
        else if x = c then 0 else -1) = _
    rw [ih]
    simp [h0]

theorem cutChars_fst_not_mem (c : Char) (l : List Char) : c ∉ (strings.cutChars c l).1 := by
  induction l with
  | nil => simp [strings.cutChars]
  | cons x xs ih =>
    by_cases hx : x = c
    · simp [strings.cutChars, hx]
    · simp [strings.cutChars, hx, ih]
      exact fun e => hx e.symm

theorem cutChars_of_not_mem (c : Char) (l : List Char) (h : c ∉ l) :
    strings.cutChars c l = (l, none) := by
  induction l with
  | nil => rfl
  | cons x xs ih =>
    have hx : x ≠ c := fun e => h (by simp [e])
    have hxs : c ∉ xs := fun e => h (by simp [e])
    simp [strings.cutChars, hx, ih hxs]

theorem cutChars_append (c : Char) (a b : List Char) (h : c ∉ a) :
    strings.cutChars c (a ++ c :: b) = (a, some b) := by
  induction a with
  | nil => simp [strings.cutChars]
  | cons x xs ih =>
    have hx : x ≠ c := fun e => h (by simp [e])
    have hxs : c ∉ xs := fun e => h (by simp [e])
    simp [strings.cutChars, hx, ih hxs]

/-- The first part returned by `strings.SplitN(arg, "=", 2)` holds no `=`, so
the two inner `strings.Index(..., replaceSplit)` tests of `splitWith` never
succeed: the function reduces to a split at the last `@` of that part. -/
theorem splitWith_eq (arg : String) :
    splitWith arg =
      (let parts := strings.SplitN2 arg '='
       let replace : String := match parts.2 with
         | some p1 => p1
         | none => ""
       let i := strings.LastIndex parts.1 '@'
       let module := if i < 0 then parts.1 else strings.sliceTo parts.1 i
       let version := if i < 0 then "" else strings.sliceFrom parts.1 (i + 1)
       { module := module, version := version, replace := replace,
         err := if module = "" then some "module name is required" else none }) := by
  have h0 : '=' ∉ (strings.cutChars '=' arg.data).1 := cutChars_fst_not_mem _ _
  have h1 : strings.Index (strings.SplitN2 arg '=').1 '=' = -1 :=
    indexChars_of_not_mem _ _ h0
  have h2 : ∀ k : Int, strings.Index (strings.sliceFrom (strings.SplitN2 arg '=').1 k) '=' = -1 :=
    fun k => indexChars_of_not_mem _ _ (fun hm => h0 (List.mem_of_mem_drop hm))
  simp only [splitWith, h1, h2]
  by_cases hi : strings.LastIndex (strings.SplitN2 arg '=').1 '@' < 0 <;> simp [hi]

theorem cutChars_fst_subset (c : Char) (l : List Char) :
    ∀ x ∈ (strings.cutChars c l).1, x ∈ l := by
  induction l with
  | nil => simp [strings.cutChars]
  | cons y ys ih =>
    by_cases hy : y = c
    · simp [strings.cutChars, hy]
    · intro x hx
      simp only [strings.cutChars, hy, if_false, List.mem_cons] at hx
      rcases hx with hx | hx
      · simp [hx]
      · exact List.mem_cons_of_mem _ (ih x hx)

/-- The parser on `m@v=t` when `m` holds no `=` and `v` neither `@` nor `=`:
the split is at the last `@` before the first `=`. -/
theorem splitWith_at_eq (m v t : String) (hm : '=' ∉ m.data) (hv : '@' ∉ v.data)
    (hv2 : '=' ∉ v.data) :
    splitWith (m ++ "@" ++ v ++ "=" ++ t) =
      ⟨m, v, t, if m = "" then some "module name is required" else none⟩ := by
  have hd : (m ++ "@" ++ v ++ "=" ++ t).data = (m.data ++ '@' :: v.data) ++ '=' :: t.data := by
    simp [String.data_append]
  have hn : '=' ∉ m.data ++ '@' :: v.data := by
    simp only [List.mem_append, List.mem_cons, not_or]
    exact ⟨hm, by decide, hv2⟩
  have hl : (0 : Int) ≤ (m.data.length : Int) := Int.natCast_nonneg _
  have hl2 : ¬ ((m.data.length : Int) < 0) := not_lt.mpr hl
  have e1 : ((m.data.length : Int) + 1).toNat = m.data.length + 1 := by omega
  rw [splitWith_eq]
  simp only [strings.SplitN2, hd, cutChars_append _ _ _ hn, strings.LastIndex,
    lastIndexChars_append _ _ _ hv, strings.sliceTo, strings.sliceFrom, hl2, if_false,
    Option.map_some', Int.toNat_ofNat, e1]
  have e2 : List.drop (m.data.length + 1) (m.data ++ '@' :: v.data) = v.data := by
    rw [List.drop_append_eq_append_drop]
    simp
  have e3 : List.take m.data.length (m.data ++ '@' :: v.data) = m.data := by
    simp
  simp only [e2, e3]

/-! ## Facts about the reconciler -/

theorem parseLoop_recordStream (mods : List module) (st : ParseState) :
    parseLoop (recordStream mods) st = (mods.foldl parseRecord st, none) := by
  induction mods generalizing st with
  | nil => rfl
  | cons m ms ih => simpa [recordStream, parseLoop] using ih (parseRecord st m)

theorem joinAt_length (d : String) (rs : List Replace) (i : Nat) :
    (joinAt d rs i).length = rs.length := by
  unfold joinAt
  split <;> simp

theorem joinAt_map_Old (d : String) (rs : List Replace) (i : Nat) :
    (joinAt d rs i).map Replace.Old = rs.map Replace.Old := by
  unfold joinAt
  split
  · rfl
  · rename_i r h
    apply List.ext_getElem?
    intro k
    by_cases hk : i = k
    · subst hk
      have hl : i < rs.length := by
        by_contra hl
        rw [List.getElem?_eq_none (Nat.le_of_not_lt hl)] at h
        exact Option.noConfusion h
      have hr : rs[i] = r := by
        rw [List.getElem?_eq_getElem hl] at h
        exact Option.some.inj h
      simp [List.getElem?_set, h, hl, hr]
    · simp [List.getElem?_set, hk]

theorem foldl_joinAt_length (d : String) (idxs : List Nat) (rs : List Replace) :
    (idxs.foldl (joinAt d) rs).length = rs.length := by
  induction idxs generalizing rs with
  | nil => rfl
  | cons i is ih => simp [ih, joinAt_length]

theorem foldl_joinAt_map_Old (d : String) (idxs : List Nat) (rs : List Replace) :
    (idxs.foldl (joinAt d) rs).map Replace.Old = rs.map Replace.Old := by
  induction idxs generalizing rs with
  | nil => rfl
  | cons i is ih => simp [ih, joinAt_map_Old]

theorem joinAt_append_lt (d : String) (rs : List Replace) (x : Replace) (i : Nat)
    (h : i < rs.length) : joinAt d (rs ++ [x]) i = joinAt d rs i ++ [x] := by
  unfold joinAt
  rw [List.getElem?_append_left h]
  split
  · rfl
  · simp [List.set_append, h]

theorem joinAt_append_length (d : String) (rs : List Replace) (x : Replace) :
    joinAt d (rs ++ [x]) rs.length = rs ++ [{ x with New := filepath.Join d x.New }] := by
  unfold joinAt
  simp [List.set_append]

theorem foldl_joinAt_append (d : String) (idxs : List Nat) (rs : List Replace) (x : Replace)
    (h : ∀ i ∈ idxs, i < rs.length) :
    idxs.foldl (joinAt d) (rs ++ [x]) = idxs.foldl (joinAt d) rs ++ [x] := by
  induction idxs generalizing rs with
  | nil => rfl
  | cons i is ih =>
    have hi : i < rs.length := h i (by simp)
    simp only [List.foldl_cons]
    rw [joinAt_append_lt d rs x i hi]
    apply ih
    intro k hk
    rw [joinAt_length]
    exact h k (by simp [hk])

theorem parseRecord_main (st : ParseState) (mod : module) (hm : mod.Main = true) :
    parseRecord st mod =
      { st with
        currentModule := mod.Path
        moduleDir := mod.Dir
        replacements := st.replacements ++ [NewReplace mod.Path mod.Dir] } := by
  simp [parseRecord, hm]

theorem parseRecord_skip (st : ParseState) (mod : module) (hm : mod.Main = false)
    (hr : mod.Replace = none) : parseRecord st mod = st := by
  simp [parseRecord, hm, hr]

theorem parseRecord_repl (st : ParseState) (mod repl : module) (hm : mod.Main = false)
    (hr : mod.Replace = some repl) :
    parseRecord st mod =
      { st with
        replacements := st.replacements ++ [NewReplace mod.Path
          (if repl.Version ≠ "" then repl.Path ++ "@" ++ repl.Version
           else if filepath.IsAbs repl.Path then repl.Path
           else if st.moduleDir ≠ "" then filepath.Join st.moduleDir repl.Path
           else repl.Path)]
        unjoinedReplaces :=
          if repl.Version = "" ∧ filepath.IsAbs repl.Path = false ∧ st.moduleDir = ""
          then st.unjoinedReplaces ++ [st.replacements.length] else st.unjoinedReplaces } := by
  simp only [parseRecord, hm, hr]
  by_cases hv : repl.Version = ""
  · by_cases ha : filepath.IsAbs repl.Path = true
    · simp [hv, ha]
    · by_cases hd : st.moduleDir = ""
      · simp [hv, ha, hd]
      · simp [hv, ha, hd]
  · simp [hv]

theorem parseRecord_cases (P : ParseState → Prop) (st : ParseState) (mod : module)
    (h1 : mod.Main = true → P { st with
        currentModule := mod.Path
        moduleDir := mod.Dir
        replacements := st.replacements ++ [NewReplace mod.Path mod.Dir] })
    (h2 : mod.Main = false → mod.Replace = none → P st)
    (h3 : ∀ repl, mod.Main = false → mod.Replace = some repl →
      ¬ (repl.Version = "" ∧ filepath.IsAbs repl.Path = false ∧ st.moduleDir = "") →
      P { st with replacements := st.replacements ++ [NewReplace mod.Path
          (resolvedTarget "" st.moduleDir repl)] })
    (h4 : ∀ repl, mod.Main = false → mod.Replace = some repl →
      repl.Version = "" → filepath.IsAbs repl.Path = false → st.moduleDir = "" →
      P { st with
          replacements := st.replacements ++ [NewReplace mod.Path repl.Path]
          unjoinedReplaces := st.unjoinedReplaces ++ [st.replacements.length] }) :
    P (parseRecord st mod) := by
  by_cases hm : mod.Main = true
  · rw [parseRecord_main st mod hm]
    exact h1 hm
  · have hm : mod.Main = false := by simpa using hm
    cases hr : mod.Replace with
    | none =>
      rw [parseRecord_skip st mod hm hr]
      exact h2 hm hr
    | some repl =>
      rw [parseRecord_repl st mod repl hm hr]
      by_cases hc : repl.Version = "" ∧ filepath.IsAbs repl.Path = false ∧ st.moduleDir = ""
      · obtain ⟨hv, ha, hd⟩ := hc
        have := h4 repl hm hr hv ha hd
        simpa [hv, ha, hd] using this
      · have := h3 repl hm hr hc
        rw [if_neg hc]
        have e : resolvedTarget "" st.moduleDir repl =
            (if repl.Version ≠ "" then repl.Path ++ "@" ++ repl.Version
             else if filepath.IsAbs repl.Path then repl.Path
             else if st.moduleDir ≠ "" then filepath.Join st.moduleDir repl.Path
             else repl.Path) := by
          unfold resolvedTarget
          by_cases hv : repl.Version = ""
          · by_cases ha : filepath.IsAbs repl.Path = true
            · simp [hv, ha]
            · by_cases hd : st.moduleDir = ""
              · exact absurd ⟨hv, by simpa using ha, hd⟩ hc
              · simp [hv, ha, hd]
          · simp [hv]
        rw [← e]
        exact this

theorem resolvedTarget_final (d d1 cur : String) (repl : module)
    (h : ¬ (repl.Version = "" ∧ filepath.IsAbs repl.Path = false ∧ cur = "")) :
    resolvedTarget d cur repl = resolvedTarget d1 cur repl := by
  unfold resolvedTarget
  by_cases hv : repl.Version = ""
  · by_cases ha : filepath.IsAbs repl.Path = true
    · simp [hv, ha]
    · by_cases hd : cur = ""
      · exact absurd ⟨hv, by simpa using ha, hd⟩ h
      · simp [hv, ha, hd]
  · simp [hv]

theorem parseRecord_valid (st : ParseState) (mod : module) (h : st.Valid) :
    (parseRecord st mod).Valid := by
  have hs : ∀ i ∈ st.unjoinedReplaces, ∀ x : Replace, i < (st.replacements ++ [x]).length := by
    intro i hi x
    simp only [List.length_append, List.length_singleton]
    exact Nat.lt_succ_of_lt (h i hi)
  apply parseRecord_cases ParseState.Valid
  · intro _ i hi
    exact hs i hi _
  · intro _ _
    exact h
  · intro repl _ _ _ i hi
    exact hs i hi _
  · intro repl _ _ _ _ _ i hi
    simp only [List.mem_append, List.mem_singleton] at hi
    rcases hi with hi | hi
    · exact hs i hi _
    · subst hi
      simp

theorem parseRecord_moduleDir (st : ParseState) (mod : module) :
    (parseRecord st mod).moduleDir = dirAfter st.moduleDir mod := by
  apply parseRecord_cases (fun s => s.moduleDir = dirAfter st.moduleDir mod)
  · intro hm
    simp [dirAfter, hm]
  · intro hm _
    simp [dirAfter, hm]
  · intro repl hm _ _
    simp [dirAfter, hm]
  · intro repl hm _ _ _ _
    simp [dirAfter, hm]

theorem parseRecord_currentModule (st : ParseState) (mod : module) :
    (parseRecord st mod).currentModule = moduleAfter st.currentModule mod := by
  apply parseRecord_cases (fun s => s.currentModule = moduleAfter st.currentModule mod)
  · intro hm
    simp [moduleAfter, hm]
  · intro hm _
    simp [moduleAfter, hm]
  · intro repl hm _ _
    simp [moduleAfter, hm]
  · intro repl hm _ _ _ _
    simp [moduleAfter, hm]

theorem parseRecord_resolve (d : String) (st : ParseState) (mod : module) (h : st.Valid) :
    (parseRecord st mod).resolve d = st.resolve d ++ entriesOf d st.moduleDir mod := by
  apply parseRecord_cases (fun s => s.resolve d = st.resolve d ++ entriesOf d st.moduleDir mod)
  · intro hm
    simp only [ParseState.resolve, entriesOf, hm, if_true]
    exact foldl_joinAt_append d _ _ _ h
  · intro hm hr
    simp [entriesOf, hm, hr]
  · intro repl hm hr hc
    simp only [ParseState.resolve, entriesOf, hm, hr, Bool.false_eq_true, if_false]
    rw [resolvedTarget_final d "" st.moduleDir repl hc]
    exact foldl_joinAt_append d _ _ _ h
  · intro repl hm hr hv ha hd
    simp only [ParseState.resolve, entriesOf, hm, hr, Bool.false_eq_true, if_false,
      List.foldl_append, List.foldl_cons, List.foldl_nil]
    rw [foldl_joinAt_append d _ _ _ h]
    have hl := foldl_joinAt_length d st.unjoinedReplaces st.replacements
    rw [← hl, joinAt_append_length]
    simp [resolvedTarget, hv, ha, hd, NewReplace]

theorem foldl_parseRecord_valid (mods : List module) (st : ParseState) (h : st.Valid) :
    (mods.foldl parseRecord st).Valid := by
  induction mods generalizing st with
  | nil => exact h
  | cons m ms ih => exact ih _ (parseRecord_valid st m h)

theorem foldl_parseRecord_moduleDir (mods : List module) (st : ParseState) :
    (mods.foldl parseRecord st).moduleDir = mods.foldl dirAfter st.moduleDir := by
  induction mods generalizing st with
  | nil => rfl
  | cons m ms ih => simp only [List.foldl_cons, ih, parseRecord_moduleDir]

theorem foldl_parseRecord_currentModule (mods : List module) (st : ParseState) :
    (mods.foldl parseRecord st).currentModule = mods.foldl moduleAfter st.currentModule := by
  induction mods generalizing st with
  | nil => rfl
  | cons m ms ih => simp only [List.foldl_cons, ih, parseRecord_currentModule]

theorem foldl_parseRecord_resolve (d : String) (mods : List module) (st : ParseState)
    (h : st.Valid) :
    (mods.foldl parseRecord st).resolve d = st.resolve d ++ entries d st.moduleDir mods := by
  induction mods generalizing st with
  | nil => simp [entries]
  | cons m ms ih =>
    simp only [List.foldl_cons, entries]
    rw [ih _ (parseRecord_valid st m h), parseRecord_resolve d st m h, parseRecord_moduleDir,
      List.append_assoc]

/-- What `parseGoListJson` returns for a stream of records, in closed form. -/
theorem parseGoListJson_recordStream (mods : List module) :
    parseGoListJson (recordStream mods) =
      { currentModule := mods.foldl moduleAfter ""
        moduleDir := mods.foldl dirAfter ""
        replacements := entries (mods.foldl dirAfter "") "" mods
        err := none } := by
  have hv : ParseState.Valid ⟨"", "", [], []⟩ := by
    intro i hi
    simp at hi
  have h := foldl_parseRecord_resolve (mods.foldl dirAfter "") mods ⟨"", "", [], []⟩ hv
  have hd := foldl_parseRecord_moduleDir mods ⟨"", "", [], []⟩
  have hc := foldl_parseRecord_currentModule mods ⟨"", "", [], []⟩
  simp only [parseGoListJson, parseLoop_recordStream]
  simp only [ParseState.resolve] at h
  rw [hd, hc]
  rw [h]
  simp

theorem foldl_dirAfter_nonroot (cur : String) (mods : List module)
    (h : ∀ m ∈ mods, m.Main = false) : mods.foldl dirAfter cur = cur := by
  induction mods with
  | nil => rfl
  | cons m ms ih =>
    have hm : m.Main = false := h m (by simp)
    simp only [List.foldl_cons, dirAfter, hm, Bool.false_eq_true, if_false]
    exact ih (fun x hx => h x (by simp [hx]))

theorem foldl_moduleAfter_nonroot (cur : String) (mods : List module)
    (h : ∀ m ∈ mods, m.Main = false) : mods.foldl moduleAfter cur = cur := by
  induction mods with
  | nil => rfl
  | cons m ms ih =>
    have hm : m.Main = false := h m (by simp)
    simp only [List.foldl_cons, moduleAfter, hm, Bool.false_eq_true, if_false]
    exact ih (fun x hx => h x (by simp [hx]))

theorem entries_append (d cur : String) (a b : List module) :
    entries d cur (a ++ b) = entries d cur a ++ entries d (a.foldl dirAfter cur) b := by
  induction a generalizing cur with
  | nil => simp [entries]
  | cons m ms ih => simp [entries, ih, List.append_assoc]

theorem resolvedTarget_eq_reference (d cur : String) (repl : module) (h : cur = "" ∨ cur = d) :
    resolvedTarget d cur repl = referenceTarget d repl := by
  unfold resolvedTarget referenceTarget
  rcases h with h | h
  · simp [h]
  · subst h
    by_cases hc : cur = "" <;> simp [hc]

theorem entries_nonroot (d cur : String) (mods : List module)
    (h : ∀ m ∈ mods, m.Main = false) (hc : cur = "" ∨ cur = d) :
    entries d cur mods = mods.filterMap (referenceEntry d) := by
  induction mods with
  | nil => rfl
  | cons m ms ih =>
    have hm : m.Main = false := h m (by simp)
    have ih1 := ih (fun x hx => h x (by simp [hx]))
    simp only [entries, dirAfter, hm, Bool.false_eq_true, if_false, ih1]
    cases hr : m.Replace with
    | none => simp [entriesOf, referenceEntry, hm, hr, List.filterMap_cons]
    | some repl =>
      simp [entriesOf, referenceEntry, hm, hr, List.filterMap_cons,
        resolvedTarget_eq_reference d cur repl hc]

theorem entries_map_Old (d cur : String) (mods : List module) :
    (entries d cur mods).map Replace.Old = (mods.filter hasEntry).map module.Path := by
  induction mods generalizing cur with
  | nil => rfl
  | cons m ms ih =>
    simp only [entries, List.map_append, ih]
    by_cases hm : m.Main = true
    · simp [entriesOf, hasEntry, hm, NewReplace]
    · have hm : m.Main = false := by simpa using hm
      cases hr : m.Replace with
      | none => simp [entriesOf, hasEntry, hm, hr]
      | some repl => simp [entriesOf, hasEntry, hm, hr, NewReplace]

theorem getElem?_joinAt (d : String) (rs : List Replace) (i k : Nat) :
    (joinAt d rs i)[k]? = if k = i then rs[k]?.map (joinTarget d) else rs[k]? := by
  unfold joinAt
  by_cases hk : k = i
  · subst hk
    cases h : rs[k]? with
    | none => simp [h]
    | some r =>
      have hl : k < rs.length := by
        by_contra hl
        rw [List.getElem?_eq_none (Nat.le_of_not_lt hl)] at h
        exact Option.noConfusion h
      simp [List.getElem?_set, hl, joinTarget]
  · cases h : rs[i]? with
    | none => simp [hk]
    | some r =>
      have hk2 : ¬ i = k := fun e => hk e.symm
      simp [List.getElem?_set, hk, hk2]

theorem getElem?_foldl_joinAt (d : String) (idxs : List Nat) (rs : List Replace)
    (hn : idxs.Nodup) (k : Nat) :
    (idxs.foldl (joinAt d) rs)[k]? =
      if k ∈ idxs then rs[k]?.map (joinTarget d) else rs[k]? := by
  induction idxs generalizing rs with
  | nil => simp
  | cons i is ih =>
    have hni : i ∉ is := (List.nodup_cons.mp hn).1
    simp only [List.foldl_cons]
    rw [ih _ (List.nodup_cons.mp hn).2, getElem?_joinAt]
    by_cases hk : k = i
    · subst hk
      simp [hni]
    · simp [hk]

theorem parseRecord_nodup (st : ParseState) (mod : module) (h : st.Valid)
    (hn : st.unjoinedReplaces.Nodup) : (parseRecord st mod).unjoinedReplaces.Nodup := by
  apply parseRecord_cases (fun s => s.unjoinedReplaces.Nodup)
  · intro _
    exact hn
  · intro _ _
    exact hn
  · intro _ _ _ _
    exact hn
  · intro repl _ _ _ _ _
    show (st.unjoinedReplaces ++ [st.replacements.length]).Nodup
    rw [List.nodup_append]
    refine ⟨hn, List.nodup_singleton _, ?_⟩
    intro a ha hb
    simp only [List.mem_singleton] at hb
    have := h a ha
    omega

theorem foldl_parseRecord_nodup (mods : List module) (st : ParseState) (h : st.Valid)
    (hn : st.unjoinedReplaces.Nodup) : (mods.foldl parseRecord st).unjoinedReplaces.Nodup := by
  induction mods generalizing st with
  | nil => exact hn
  | cons m ms ih => exact ih _ (parseRecord_valid st m h) (parseRecord_nodup st m h hn)

theorem loopState_recordStream (mods : List module) :
    loopState (recordStream mods) = mods.foldl parseRecord ⟨"", "", [], []⟩ := by
  simp [loopState, parseLoop_recordStream]

theorem parseGoListJson_replacements_eq (mods : List module) :
    (parseGoListJson (recordStream mods)).replacements =
      (loopState (recordStream mods)).unjoinedReplaces.foldl
        (joinAt (parseGoListJson (recordStream mods)).moduleDir)
        (loopState (recordStream mods)).replacements := by
  simp [parseGoListJson, loopState, parseLoop_recordStream]

/-! ## Facts about the argument loop -/

theorem hasSuffix_iff (s : String) (c : Char) :
    strings.HasSuffix s c = true ↔ ∃ p : List Char, s.data = p ++ [c] := by
  unfold strings.HasSuffix
  rcases List.eq_nil_or_concat s.data with h | ⟨L, b, h⟩
  · simp [h]
  · have h1 : s.data = L ++ [b] := by simpa using h
    simp only [h1, List.reverse_append, List.reverse_singleton, List.singleton_append,
      beq_iff_eq]
    constructor
    · intro e
      exact ⟨L, by rw [e]⟩
    · rintro ⟨q, hq⟩
      have := List.append_inj_right' hq rfl
      simpa using this

theorem trimSuffix_hasSuffix (s : String) (c : Char) :
    strings.HasSuffix (strings.TrimSuffix s c) c = true ↔
      ∃ p : List Char, s.data = p ++ [c, c] := by
  unfold strings.TrimSuffix
  by_cases h : strings.HasSuffix s c = true
  · rw [if_pos h]
    obtain ⟨p, hp⟩ := (hasSuffix_iff s c).mp h
    rw [hasSuffix_iff]
    simp only [hp, List.dropLast_concat]
    constructor
    · rintro ⟨q, hq⟩
      exact ⟨q, by simp [hq]⟩
    · rintro ⟨q, hq⟩
      refine ⟨q, ?_⟩
      have : p ++ [c] = (q ++ [c]) ++ [c] := by simpa using hq
      exact List.append_cancel_right this
  · rw [if_neg h]
    constructor
    · intro h2
      exact absurd h2 h
    · rintro ⟨q, hq⟩
      exact absurd ((hasSuffix_iff s c).mpr ⟨q ++ [c], by simp [hq]⟩) h

/-- What an accepted `--with` or `--replace` value does to the state: the
parser accepted the value, `--with` appends the dependency of the value, and
the substitution of the value, if any, is appended. -/
theorem withOrReplace_ok (cwd : Option String) (a v : String) (st st1 : BuildArgs)
    (h : withOrReplace cwd a v st = .ok st1) :
    (splitWith v).err = none ∧
    st1.plugins = st.plugins ++ (if a = "--with" then [dependencyOf v] else []) ∧
    st1.replacements = st.replacements ++ substitutionOf cwd v ∧
    st1.argPortalVersion = st.argPortalVersion ∧ st1.output = st.output := by
  have hpl : (if a = "--with" then st.plugins ++ [dependencyOf v] else st.plugins) =
      st.plugins ++ (if a = "--with" then [dependencyOf v] else []) := by
    by_cases ha : a = "--with" <;> simp [ha]
  cases he : (splitWith v).err with
  | some e =>
    simp only [withOrReplace, he] at h
    exact Outcome.noConfusion h
  | none =>
    simp only [withOrReplace, he] at h
    by_cases h1 : a ≠ "--with" ∧ (splitWith v).replace = ""
    · rw [if_pos h1] at h
      exact Outcome.noConfusion h
    · rw [if_neg h1] at h
      by_cases h2 : (splitWith v).replace ≠ ""
      · rw [if_pos h2] at h
        by_cases h3 : strings.HasPrefix (splitWith v).replace '.' = true
        · rw [if_pos h3] at h
          cases hA : filepath.Abs cwd (splitWith v).replace with
          | none =>
            simp only [hA] at h
            exact Outcome.noConfusion h
          | some t =>
            simp only [hA] at h
            injection h with h
            subst h
            refine ⟨rfl, hpl, ?_, rfl, rfl⟩
            simp [substitutionOf, dependencyOf, h2, h3, hA]
        · rw [if_neg h3] at h
          injection h with h
          subst h
          refine ⟨rfl, hpl, ?_, rfl, rfl⟩
          simp [substitutionOf, dependencyOf, h2, h3]
      · rw [if_neg h2] at h
        injection h with h
        subst h
        refine ⟨rfl, hpl, ?_, rfl, rfl⟩
        have h2 : (splitWith v).replace = "" := by simpa using h2
        simp [substitutionOf, h2]

theorem positional_ok (a : String) (st st1 : BuildArgs) (h : positional a st = .ok st1) :
    st1 = { st with argPortalVersion := a } := by
  unfold positional at h
  by_cases hc : st.argPortalVersion ≠ ""
  · rw [if_pos hc] at h
    exact Outcome.noConfusion h
  · rw [if_neg hc] at h
    injection h with h
    exact h.symm

/-- The argument loop, when it succeeds, has appended to the plugins and to the
substitutions exactly those of the directives of the arguments, in order, and
the parser accepted every directive value. -/
theorem runBuildLoop_ok (cwd : Option String) :
    ∀ (n : Nat) (args : List String) (st st1 : BuildArgs), args.length ≤ n →
      runBuildLoop cwd args st = .ok st1 →
      st1.plugins = st.plugins ++ explicitPlugins (directiveValues args) ∧
      st1.replacements = st.replacements ++ explicitSubstitutions cwd (directiveValues args) ∧
      ∀ p ∈ directiveValues args, (splitWith p.2).err = none := by
  intro n
  induction n with
  | zero =>
    intro args st st1 hl h
    have : args = [] := List.length_eq_zero.mp (Nat.le_zero.mp hl)
    subst this
    simp only [runBuildLoop] at h
    injection h with h
    subst h
    simp [directiveValues, explicitPlugins, explicitSubstitutions]
  | succ n ih =>
    intro args st st1 hl h
    match args, hl, h with
    | [], _, h =>
      simp only [runBuildLoop] at h
      injection h with h
      subst h
      simp [directiveValues, explicitPlugins, explicitSubstitutions]
    | [a], _, h =>
      simp only [runBuildLoop] at h
      by_cases c1 : a = "--with" ∨ a = "--replace"
      · rw [if_pos c1] at h
        exact Outcome.noConfusion h
      · rw [if_neg c1] at h
        by_cases c2 : a = "--output"
        · rw [if_pos c2] at h
          exact Outcome.noConfusion h
        · rw [if_neg c2] at h
          rw [positional_ok a st st1 h]
          simp [directiveValues, explicitPlugins, explicitSubstitutions]
    | a :: v :: rest, hl, h =>
      have hl1 : rest.length ≤ n := by
        simp only [List.length_cons] at hl
        omega
      have hl2 : (v :: rest).length ≤ n := by
        simp only [List.length_cons] at hl ⊢
        omega
      simp only [runBuildLoop] at h
      by_cases c1 : a = "--with" ∨ a = "--replace"
      · rw [if_pos c1] at h
        cases hw : withOrReplace cwd a v st with
        | ok st2 =>
          simp only [hw] at h
          obtain ⟨he, hp, hr, _, _⟩ := withOrReplace_ok cwd a v st st2 hw
          obtain ⟨ip, ir, ie⟩ := ih rest st2 st1 hl1 h
          simp only [directiveValues, if_pos c1, explicitPlugins, explicitSubstitutions]
          refine ⟨?_, ?_, ?_⟩
          · rw [ip, hp, List.append_assoc]
          · rw [ir, hr, List.append_assoc]
          · intro p hp2
            rcases List.mem_cons.mp hp2 with hp2 | hp2
            · rw [hp2]
              exact he
            · exact ie p hp2
        | error e =>
          simp only [hw] at h
          exact Outcome.noConfusion h
        | fatal e =>
          simp only [hw] at h
          exact Outcome.noConfusion h
      · rw [if_neg c1] at h
        by_cases c2 : a = "--output"
        · rw [if_pos c2] at h
          simp only [directiveValues, if_neg c1, if_pos c2]
          have r := ih rest _ st1 hl1 h
          exact r
        · rw [if_neg c2] at h
          cases hw : positional a st with
          | ok st2 =>
            simp only [hw] at h
            rw [positional_ok a st st2 hw] at h
            simp only [directiveValues, if_neg c1, if_neg c2]
            have r := ih (v :: rest) _ st1 hl2 h
            exact r
          | error e =>
            simp only [hw] at h
            exact Outcome.noConfusion h
          | fatal e =>
            simp only [hw] at h
            exact Outcome.noConfusion h

theorem runBuild_ok (env : Env) (args : List String) (b : Builder) (o : String)
    (h : runBuild env args = .ok (b, o)) :
    ∃ st, runBuildLoop env.cwd args ⟨"", "", [], []⟩ = .ok st ∧ b.Plugins = st.plugins ∧
      b.Replacements = st.replacements ++ defaultReplacements := by
  unfold runBuild at h
  cases hl : runBuildLoop env.cwd args ⟨"", "", [], []⟩ with
  | ok st =>
    rw [hl] at h
    simp only at h
    injection h with h
    injection h with h1 h2
    subst h1
    exact ⟨st, rfl, rfl, rfl⟩
  | error e =>
    rw [hl] at h
    exact Outcome.noConfusion h
  | fatal e =>
    rw [hl] at h
    exact Outcome.noConfusion h

theorem explicitPlugins_eq (ps : List (String × String)) :
    explicitPlugins ps =
      (ps.filter (fun p => p.1 = "--with")).map
        (fun p => ⟨strings.TrimSuffix (splitWith p.2).module '/', (splitWith p.2).version⟩) := by
  induction ps with
  | nil => rfl
  | cons p ps ih =>
    by_cases hp : p.1 = "--with"
    · simp [explicitPlugins, List.filter_cons, hp, ih, dependencyOf]
    · simp [explicitPlugins, List.filter_cons, hp, ih]

theorem explicitSubstitutions_map_Old (cwd : Option String) (ps : List (String × String)) :
    (explicitSubstitutions cwd ps).map Replace.Old =
      (ps.filter (fun p => (splitWith p.2).replace ≠ "")).map
        (fun p => Dependency.String
          ⟨strings.TrimSuffix (splitWith p.2).module '/', (splitWith p.2).version⟩) := by
  induction ps with
  | nil => rfl
  | cons p ps ih =>
    by_cases hp : (splitWith p.2).replace = ""
    · simp [explicitSubstitutions, substitutionOf, List.filter_cons, hp, ih]
    · simp [explicitSubstitutions, substitutionOf, List.filter_cons, hp, ih, dependencyOf,
        NewReplace]

/-- What `runBuild` hands to the builder when it gets that far: the plugins and
the explicit substitutions of the command line, the latter followed by the
built-in ones. -/
theorem runBuild_ok_exact (env : Env) (args : List String) (b : Builder) (o : String)
    (h : runBuild env args = .ok (b, o)) :
    b.Plugins = explicitPlugins (directiveValues args) ∧
    b.Replacements =
      explicitSubstitutions env.cwd (directiveValues args) ++ defaultReplacements ∧
    ∀ p ∈ directiveValues args, (splitWith p.2).err = none := by
  obtain ⟨st, hst, hp, hr⟩ := runBuild_ok env args b o h
  obtain ⟨ip, ir, ie⟩ := runBuildLoop_ok env.cwd args.length args _ st (Nat.le_refl _) hst
  refine ⟨?_, ?_, ie⟩
  · rw [hp, ip]
    rfl
  · rw [hr, ir]
    rfl

theorem foldl_parseRecord_unjoined (mods : List module) (st : ParseState)
    (hd : st.moduleDir ≠ "") (h : ∀ m ∈ mods, m.Main = false) :
    (mods.foldl parseRecord st).unjoinedReplaces = st.unjoinedReplaces := by
  induction mods generalizing st with
  | nil => rfl
  | cons m ms ih =>
    have hm : m.Main = false := h m (by simp)
    have h1 : (parseRecord st m).moduleDir ≠ "" := by
      rw [parseRecord_moduleDir]
      simpa [dirAfter, hm] using hd
    have h2 : (parseRecord st m).unjoinedReplaces = st.unjoinedReplaces := by
      apply parseRecord_cases (fun s => s.unjoinedReplaces = st.unjoinedReplaces)
      · intro _
        rfl
      · intro _ _
        rfl
      · intro _ _ _ _
        rfl
      · intro _ _ _ _ _ h0
        exact absurd h0 hd
    simp only [List.foldl_cons]
    rw [ih _ h1 (fun x hx => h x (by simp [hx])), h2]

/-! ## Main results -/

/-- C5: for every expression `m@v=t` with `m` non-empty and free of `=` (it may
hold `@`), `v` free of `@` and `=`, and any `t`, `splitWith` returns module
`m`, version `v`, replace `t` and a nil error. -/
theorem splitWith_module_version_target (m v t : String) (hne : m ≠ "")
    (hm : '=' ∉ m.data) (hv : '@' ∉ v.data) (hv2 : '=' ∉ v.data) :
    splitWith (m ++ "@" ++ v ++ "=" ++ t) = ⟨m, v, t, none⟩ := by
  rw [splitWith_at_eq m v t hm hv hv2, if_neg hne]

theorem splitWith_module_version_target_witness :
    splitWith ("example.com/@scope/pkg" ++ "@" ++ "v1.2.3" ++ "=" ++ "../local=a@b") =
      ⟨"example.com/@scope/pkg", "v1.2.3", "../local=a@b", none⟩ :=
  splitWith_module_version_target "example.com/@scope/pkg" "v1.2.3" "../local=a@b"
    (by decide) (by decide) (by decide) (by decide)

/-- C6: for every expression without `@`, `splitWith` returns an empty version;
when the expression is `a=t` with no `=` in `a`, the module is `a` and the
target is `t` (everything after the first `=`); when it holds no `=`, the
module is the whole expression and the target is empty. -/
theorem splitWith_without_version (arg : String) (h : '@' ∉ arg.data) :
    (splitWith arg).version = "" ∧
    (∀ a t : String, '=' ∉ a.data → arg = a ++ "=" ++ t →
      (splitWith arg).module = a ∧ (splitWith arg).replace = t) ∧
    ('=' ∉ arg.data → (splitWith arg).module = arg ∧ (splitWith arg).replace = "") := by
  have h1 : '@' ∉ (strings.cutChars '=' arg.data).1 :=
    fun hm => h (cutChars_fst_subset _ _ _ hm)
  have hi : strings.LastIndex (strings.SplitN2 arg '=').1 '@' < 0 := by
    simp [strings.LastIndex, strings.SplitN2, lastIndexChars_of_not_mem _ _ h1]
  refine ⟨?_, ?_, ?_⟩
  · rw [splitWith_eq]
    simp [hi]
  · intro a t ha he
    have hd : arg.data = a.data ++ '=' :: t.data := by
      rw [he]
      simp [String.data_append]
    rw [splitWith_eq]
    simp only [hi, if_true]
    simp [strings.SplitN2, hd, cutChars_append _ _ _ ha]
  · intro he
    rw [splitWith_eq]
    simp only [hi, if_true]
    simp [strings.SplitN2, cutChars_of_not_mem _ _ he]

theorem splitWith_without_version_witness :
    (splitWith "example.com/mod=../local=x").version = "" ∧
    (splitWith "example.com/mod=../local=x").module = "example.com/mod" ∧
    (splitWith "example.com/mod=../local=x").replace = "../local=x" :=
  have h := splitWith_without_version "example.com/mod=../local=x" (by decide)
  ⟨h.1, h.2.1 "example.com/mod" "../local=x" (by decide) (by decide)⟩

/-- C7, refuted as stated: on `example.com/@scope/pkg=../local` the parser
splits inside the module path, at its `@`; it does not return the whole path
with an empty version. -/
theorem splitWith_scoped_path_counterexample :
    splitWith "example.com/@scope/pkg=../local" =
        ⟨"example.com/", "scope/pkg", "../local", none⟩ ∧
    splitWith "example.com/@scope/pkg=../local" ≠
        ⟨"example.com/@scope/pkg", "", "../local", none⟩ := by
  decide

/-- C7, amended: for an expression `p=t` whose part `p` before the first `=` is
`m@v` with no `@` in `v` (so the `@` shown is the last one of `p`), `splitWith`
splits `p` at that `@`: module `m`, version `v`, replace `t`; the error is
set exactly when `m` is empty. -/
theorem splitWith_splits_at_last_at (m v t : String) (hm : '=' ∉ m.data)
    (hv : '@' ∉ v.data) (hv2 : '=' ∉ v.data) :
    (splitWith (m ++ "@" ++ v ++ "=" ++ t)).module = m ∧
    (splitWith (m ++ "@" ++ v ++ "=" ++ t)).version = v ∧
    (splitWith (m ++ "@" ++ v ++ "=" ++ t)).replace = t ∧
    ((splitWith (m ++ "@" ++ v ++ "=" ++ t)).err ≠ none ↔ m = "") := by
  rw [splitWith_at_eq m v t hm hv hv2]
  refine ⟨rfl, rfl, rfl, ?_⟩
  by_cases h : m = "" <;> simp [h]

theorem splitWith_splits_at_last_at_witness :
    (splitWith ("example.com/" ++ "@" ++ "scope/pkg" ++ "=" ++ "../local")).module =
      "example.com/" ∧
    (splitWith ("example.com/" ++ "@" ++ "scope/pkg" ++ "=" ++ "../local")).version =
      "scope/pkg" ∧
    (splitWith ("example.com/" ++ "@" ++ "scope/pkg" ++ "=" ++ "../local")).replace =
      "../local" ∧
    ((splitWith ("example.com/" ++ "@" ++ "scope/pkg" ++ "=" ++ "../local")).err ≠ none ↔
      "example.com/" = "") :=
  splitWith_splits_at_last_at "example.com/" "scope/pkg" "../local"
    (by decide) (by decide) (by decide)

/-- C1: for every list `rs` of non-root records and every root record `r`,
parsing `rs` followed by `r` and parsing `r` followed by `rs` both succeed
with the same `currentModule` and `moduleDir`, and the entries produced for
the records of `rs` are the same list in both runs (the reference entries for
the directory of `r`); only the root self-substitution moves, from last to
first. -/
theorem parseGoListJson_order_independent (rs : List module) (r : module)
    (hr : r.Main = true) (hrs : ∀ m ∈ rs, m.Main = false) :
    parseGoListJson (recordStream (rs ++ [r])) =
      ⟨r.Path, r.Dir, rs.filterMap (referenceEntry r.Dir) ++ [NewReplace r.Path r.Dir], none⟩ ∧
    parseGoListJson (recordStream (r :: rs)) =
      ⟨r.Path, r.Dir, NewReplace r.Path r.Dir :: rs.filterMap (referenceEntry r.Dir), none⟩ := by
  constructor
  · rw [parseGoListJson_recordStream]
    have hd : (rs ++ [r]).foldl dirAfter "" = r.Dir := by
      simp [List.foldl_append, dirAfter, hr]
    have hc : (rs ++ [r]).foldl moduleAfter "" = r.Path := by
      simp [List.foldl_append, moduleAfter, hr]
    rw [hd, hc, entries_append, entries_nonroot r.Dir "" rs hrs (Or.inl rfl)]
    simp [entries, entriesOf, hr]
  · rw [parseGoListJson_recordStream]
    have hd : (r :: rs).foldl dirAfter "" = r.Dir := by
      simp only [List.foldl_cons, dirAfter, hr, if_true]
      exact foldl_dirAfter_nonroot _ rs hrs
    have hc : (r :: rs).foldl moduleAfter "" = r.Path := by
      simp only [List.foldl_cons, moduleAfter, hr, if_true]
      exact foldl_moduleAfter_nonroot _ rs hrs
    rw [hd, hc]
    simp only [entries, dirAfter, hr, if_true]
    rw [entries_nonroot r.Dir r.Dir rs hrs (Or.inr rfl)]
    simp [entriesOf, hr]

theorem parseGoListJson_order_independent_witness :
    parseGoListJson (recordStream ([exampleDep, exampleFork, examplePlain] ++ [exampleRoot])) =
      ⟨exampleRoot.Path, exampleRoot.Dir,
        [exampleDep, exampleFork, examplePlain].filterMap (referenceEntry exampleRoot.Dir) ++
          [NewReplace exampleRoot.Path exampleRoot.Dir], none⟩ ∧
    parseGoListJson (recordStream (exampleRoot :: [exampleDep, exampleFork, examplePlain])) =
      ⟨exampleRoot.Path, exampleRoot.Dir,
        NewReplace exampleRoot.Path exampleRoot.Dir ::
          [exampleDep, exampleFork, examplePlain].filterMap (referenceEntry exampleRoot.Dir),
        none⟩ :=
  parseGoListJson_order_independent [exampleDep, exampleFork, examplePlain] exampleRoot
    (by decide) (by decide)

/-- C2, refuted as stated: a stream without root record that holds a relative,
versionless substitution target does not make `parseGoListJson` fail; on the
single record `exampleDep` it returns a nil error and the target `local`. -/
theorem parseGoListJson_no_root_counterexample :
    (∀ m ∈ [exampleDep], m.Main = false) ∧
    (∃ m ∈ [exampleDep], relativeTarget m = true) ∧
    parseGoListJson (recordStream [exampleDep]) =
      ⟨"", "", [⟨"example.com/app/dep", "local"⟩], none⟩ := by
  decide

/-- C2, amended: for every record stream without root record that holds a
relative, versionless substitution target, `parseGoListJson` returns a nil
error, an empty `currentModule` and `moduleDir`, and the reference entries for
the empty directory: each relative target is `filepath.Join("", path)`. -/
theorem parseGoListJson_no_root (mods : List module) (h : ∀ m ∈ mods, m.Main = false)
    (_hrel : ∃ m ∈ mods, relativeTarget m = true) :
    parseGoListJson (recordStream mods) = ⟨"", "", mods.filterMap (referenceEntry ""), none⟩ := by
  rw [parseGoListJson_recordStream, foldl_dirAfter_nonroot "" mods h,
    foldl_moduleAfter_nonroot "" mods h, entries_nonroot "" "" mods h (Or.inl rfl)]

theorem parseGoListJson_no_root_witness :
    parseGoListJson (recordStream [exampleFork, exampleDep]) =
      ⟨"", "", [exampleFork, exampleDep].filterMap (referenceEntry ""), none⟩ :=
  parseGoListJson_no_root [exampleFork, exampleDep] (by decide) (by decide)

/-- C3: for every record stream the output of `parseGoListJson` has exactly one
entry per record that is the root or carries a substitution, in stream order,
each with its record's module path as original; the deferred fix-up keeps the
length of the list and every original, whatever slots it rewrites; and the
stream `[exampleDep, exampleRoot]` yields
`[(example.com/app/dep, /home/u/app/local), (example.com/app, /home/u/app)]`. -/
theorem parseGoListJson_stream_order :
    (∀ mods : List module,
      (parseGoListJson (recordStream mods)).replacements.map Replace.Old =
        (mods.filter hasEntry).map module.Path ∧
      (parseGoListJson (recordStream mods)).replacements.length =
        (mods.filter hasEntry).length) ∧
    (∀ (d : String) (idxs : List Nat) (rs : List Replace),
      (idxs.foldl (joinAt d) rs).length = rs.length ∧
      (idxs.foldl (joinAt d) rs).map Replace.Old = rs.map Replace.Old) ∧
    parseGoListJson (recordStream [exampleDep, exampleRoot]) =
      ⟨"example.com/app", "/home/u/app",
        [⟨"example.com/app/dep", "/home/u/app/local"⟩, ⟨"example.com/app", "/home/u/app"⟩],
        none⟩ := by
  refine ⟨?_, ?_, by decide⟩
  · intro mods
    have h : (parseGoListJson (recordStream mods)).replacements.map Replace.Old =
        (mods.filter hasEntry).map module.Path := by
      rw [parseGoListJson_recordStream]
      exact entries_map_Old _ _ _
    refine ⟨h, ?_⟩
    have hl := congrArg List.length h
    simpa using hl
  · intro d idxs rs
    exact ⟨foldl_joinAt_length d idxs rs, foldl_joinAt_map_Old d idxs rs⟩

/-- C10: for every record stream with exactly one root record `r`, of
non-empty directory, at any position, `parseGoListJson` returns the path and
directory of `r`, a nil error and, record by record, the reference entries of
the spec for that directory. Nothing is deferred from the root record on, the
deferred slots are pairwise distinct, the final loop joins each of them to the
directory once and leaves every other slot as the decoding loop wrote it. -/
theorem parseGoListJson_reference (before after : List module) (r : module)
    (hr : r.Main = true) (hD : r.Dir ≠ "")
    (hb : ∀ m ∈ before, m.Main = false) (ha : ∀ m ∈ after, m.Main = false) :
    parseGoListJson (recordStream (before ++ r :: after)) =
      ⟨r.Path, r.Dir, (before ++ r :: after).filterMap (referenceEntry r.Dir), none⟩ ∧
    (loopState (recordStream (before ++ r :: after))).unjoinedReplaces =
      (loopState (recordStream before)).unjoinedReplaces ∧
    (loopState (recordStream (before ++ r :: after))).unjoinedReplaces.Nodup ∧
    ∀ k : Nat,
      (parseGoListJson (recordStream (before ++ r :: after))).replacements[k]? =
        if k ∈ (loopState (recordStream (before ++ r :: after))).unjoinedReplaces
        then (loopState (recordStream (before ++ r :: after))).replacements[k]?.map
          (joinTarget r.Dir)
        else (loopState (recordStream (before ++ r :: after))).replacements[k]? := by
  have hv : ParseState.Valid ⟨"", "", [], []⟩ := by
    intro i hi
    simp at hi
  have hd : (before ++ r :: after).foldl dirAfter "" = r.Dir := by
    simp only [List.foldl_append, List.foldl_cons, dirAfter, hr, if_true]
    exact foldl_dirAfter_nonroot _ after ha
  have hc : (before ++ r :: after).foldl moduleAfter "" = r.Path := by
    simp only [List.foldl_append, List.foldl_cons, moduleAfter, hr, if_true]
    exact foldl_moduleAfter_nonroot _ after ha
  have hn : (loopState (recordStream (before ++ r :: after))).unjoinedReplaces.Nodup := by
    rw [loopState_recordStream]
    exact foldl_parseRecord_nodup _ _ hv List.nodup_nil
  have h1 : parseGoListJson (recordStream (before ++ r :: after)) =
      ⟨r.Path, r.Dir, (before ++ r :: after).filterMap (referenceEntry r.Dir), none⟩ := by
    rw [parseGoListJson_recordStream, hd, hc, entries_append,
      entries_nonroot r.Dir "" before hb (Or.inl rfl), foldl_dirAfter_nonroot "" before hb]
    simp only [entries, dirAfter, hr, if_true]
    rw [entries_nonroot r.Dir r.Dir after ha (Or.inr rfl)]
    simp [entriesOf, referenceEntry, hr, List.filterMap_append, List.filterMap_cons]
  have hu : (loopState (recordStream (before ++ r :: after))).unjoinedReplaces =
      (loopState (recordStream before)).unjoinedReplaces := by
    rw [loopState_recordStream, loopState_recordStream, List.foldl_append, List.foldl_cons]
    rw [foldl_parseRecord_unjoined after _ (by rw [parseRecord_main _ r hr]; exact hD) ha,
      parseRecord_main _ r hr]
  refine ⟨h1, hu, hn, ?_⟩
  intro k
  have hm : (parseGoListJson (recordStream (before ++ r :: after))).moduleDir = r.Dir := by
    rw [h1]
  rw [parseGoListJson_replacements_eq, hm]
  exact getElem?_foldl_joinAt r.Dir _ _ hn k

theorem parseGoListJson_reference_witness :
    parseGoListJson (recordStream ([exampleDep, exampleFork] ++ exampleRoot :: [exampleAbs])) =
      ⟨exampleRoot.Path, exampleRoot.Dir,
        ([exampleDep, exampleFork] ++ exampleRoot :: [exampleAbs]).filterMap
          (referenceEntry exampleRoot.Dir), none⟩ :=
  (parseGoListJson_reference [exampleDep, exampleFork] [exampleAbs] exampleRoot
    (by decide) (by decide) (by decide) (by decide)).1

/-- C8, refuted as stated: `runBuild` accepts `--with example.com/mod//` and
hands the builder a plugin whose module path `example.com/mod/` still ends
with a separator. -/
theorem runBuild_trailing_separator_counterexample :
    runBuild exampleEnv ["--with", "example.com/mod//"] =
      .ok (⟨"", [⟨"example.com/mod/", ""⟩], defaultReplacements,
        false, false, false, false, "", ""⟩, "./portal") ∧
    strings.HasSuffix "example.com/mod/" '/' = true := by
  decide

/-- C8, amended: one trailing separator is stripped from the module path.
Whenever `runBuild` reaches the builder, the parser has accepted the value of
every `--with` and `--replace` directive, the plugins are the dependencies of
the `--with` values in command-line order, each with the parsed module path
less one trailing `/` as module path, and the originals of the substitutions
are the renderings of the dependencies of the values that have a target,
followed by the built-in originals. The module path of such a dependency ends
with `/` exactly when the parsed module path ended with `//`. -/
theorem runBuild_module_trimmed_once (env : Env) (args : List String) (b : Builder)
    (o : String) (h : runBuild env args = .ok (b, o)) :
    b.Plugins =
      ((directiveValues args).filter (fun p => p.1 = "--with")).map
        (fun p => ⟨strings.TrimSuffix (splitWith p.2).module '/', (splitWith p.2).version⟩) ∧
    b.Replacements.map Replace.Old =
      ((directiveValues args).filter (fun p => (splitWith p.2).replace ≠ "")).map
        (fun p => Dependency.String
          ⟨strings.TrimSuffix (splitWith p.2).module '/', (splitWith p.2).version⟩) ++
        defaultReplacements.map Replace.Old ∧
    ∀ p ∈ directiveValues args, (splitWith p.2).err = none ∧
      (strings.HasSuffix (strings.TrimSuffix (splitWith p.2).module '/') '/' = true ↔
        ∃ q : List Char, (splitWith p.2).module.data = q ++ ['/', '/']) := by
  obtain ⟨hp, hr, he⟩ := runBuild_ok_exact env args b o h
  refine ⟨?_, ?_, ?_⟩
  · rw [hp]
    exact explicitPlugins_eq _
  · rw [hr, List.map_append, explicitSubstitutions_map_Old]
  · intro p hp2
    exact ⟨he p hp2, trimSuffix_hasSuffix _ _⟩

theorem runBuild_module_trimmed_once_witness :
    (⟨"v1.2.3", [⟨"example.com/mod", "v1.0.0"⟩],
        [⟨"example.com/a", "/x"⟩] ++ defaultReplacements,
        false, false, false, false, "", ""⟩ : Builder).Plugins =
      ((directiveValues
          ["--with", "example.com/mod/@v1.0.0", "v1.2.3", "--replace", "example.com/a/=/x"]).filter
        (fun p => p.1 = "--with")).map
        (fun p => ⟨strings.TrimSuffix (splitWith p.2).module '/', (splitWith p.2).version⟩) :=
  (runBuild_module_trimmed_once exampleEnv
    ["--with", "example.com/mod/@v1.0.0", "v1.2.3", "--replace", "example.com/a/=/x"]
    _ "./portal" (by decide)).1

/-- C9, the code at the failing inputs: `splitWith` accepts the value `/`, whose
module path is empty once the trailing separator is stripped, and `runBuild`
then hands the builder a plugin, or a substitution, with an empty module path
instead of returning an error. The parser itself fails exactly when the module
it returns is empty. -/
theorem runBuild_accepts_empty_module :
    (splitWith "/").err = none ∧
    strings.TrimSuffix (splitWith "/").module '/' = "" ∧
    runBuild exampleEnv ["--with", "/"] =
      .ok (⟨"", [⟨"", ""⟩], defaultReplacements, false, false, false, false, "", ""⟩,
        "./portal") ∧
    runBuild exampleEnv ["--replace", "/=/x"] =
      .ok (⟨"", [], ⟨"", "/x"⟩ :: defaultReplacements, false, false, false, false, "", ""⟩,
        "./portal") ∧
    (∀ arg : String, (splitWith arg).err ≠ none ↔ (splitWith arg).module = "") := by
  refine ⟨by decide, by decide, by decide, by decide, ?_⟩
  intro arg
  unfold splitWith
  simp only
  split_ifs <;> simp_all

end Xportal
